import Mathlib

/-!
Shallow embedding of the Wordle solver from `src/wordle_solver.py`.

A word is a list of characters (a Python string iterated over its
characters).  The file-loading, terminal I/O and the `wordfreq` library
are external: the vocabulary is a parameter of the constructor and the
`wordfreq.zipf_frequency` oracle is a parameter `zipf : Word → ℚ` of the
operations that score words.

Python exceptions (index out of range on `result_key[index]` /
`guess[index]`, `max` of an empty mapping) are modelled with `Option`:
`none` is the operation raising, `some` is normal completion.
-/

abbrev Word := List Char

namespace WordleSolver

/-- Python `__gray_letter`: keep only the words that do NOT contain `letter`. -/
def grayLetter (letter : Char) (l : List Word) : List Word :=
  l.filter (fun word => !(word.contains letter))

/-- Python `__green_letter`: keep only the words with `letter` at `location`. -/
def greenLetter (letter : Char) (location : Nat) (l : List Word) : List Word :=
  l.filter (fun word => word[location]? == some letter)

/-- Python `__yellow_letter`: keep only the words that do not have `letter` at
`location` but do contain it somewhere. -/
def yellowLetter (letter : Char) (location : Nat) (l : List Word) : List Word :=
  l.filter (fun word => !(word[location]? == some letter) && word.contains letter)

/-- One iteration of the loop in `__refine_working_list`: reads
`result_key[index]` and `guess[index]` (in Python an out-of-range access
raises, modelled by `none`) and applies the matching filter.  Any symbol
other than `'-'` and `'y'` takes the `else` branch (green). -/
def applyKeyChar (guess key : Word) (l : List Word) (index : Nat) : Option (List Word) :=
  match key[index]?, guess[index]? with
  | some k, some g =>
      if k = '-' then some (grayLetter g l)
      else if k = 'y' then some (yellowLetter g index l)
      else some (greenLetter g index l)
  | _, _ => none

/-- The filtering loop of `__refine_working_list` (`for index in range(0, 5)`).
The rescoring that follows it in the Python method is done by the caller
`enterResult` below, on the state. -/
def refineWorkingList (guess key : Word) (l : List Word) : Option (List Word) :=
  (List.range 5).foldlM (applyKeyChar guess key) l

/-- Python `__get_letter_usage`: `Counter(chain.from_iterable(working_list))` —
the number of occurrences of each character in the concatenation of all
words of the working list (a `Counter` yields `0` for missing keys). -/
def getLetterUsage (l : List Word) : Char → Nat :=
  fun letter => l.flatten.count letter

/-- Python `__get_word_score`: sum of the letter counts over the de-duplicated
letters of the word (`list(set(word))`), plus `zipf_frequency(word) * 2`. -/
def getWordScore (letterCount : Char → Nat) (zipf : Word → ℚ) (word : Word) : ℚ :=
  (word.dedup.map (fun letter => (letterCount letter : ℚ))).sum + zipf word * 2

/-- The solver state: the fields of the `WordleSolver` class.
`scoredWords` is the insertion-ordered dictionary `__scored_words`,
kept as the list of its items. -/
structure State where
  validWords : List Word
  workingList : List Word
  letterCount : Char → Nat
  scoredWords : List (Word × ℚ)
  currentGuess : Word
  guessNumber : Nat

/-- Python `__score_words`: recompute `__letter_count` and `__scored_words`
from the current working list. -/
def scoreWords (zipf : Word → ℚ) (s : State) : State :=
  { s with
    letterCount := getLetterUsage s.workingList
    scoredWords := s.workingList.map
      (fun word => (word, getWordScore (getLetterUsage s.workingList) zipf word)) }

/-- Python `__prepare_game`: reset the working list to the valid words and score. -/
def prepareGame (zipf : Word → ℚ) (s : State) : State :=
  scoreWords zipf { s with workingList := s.validWords }

/-- Python `__init__` with the vocabulary read from `valid_words.csv` passed in
as `validWords` (the file loader is an external collaborator). -/
def mkSolver (zipf : Word → ℚ) (validWords : List Word) : State :=
  prepareGame zipf
    { validWords := validWords
      workingList := []
      letterCount := fun _ => 0
      scoredWords := []
      currentGuess := []
      guessNumber := 0 }

/-- Python `enter_guess`: record the guess and bump the counter. -/
def enterGuess (s : State) (word : Word) : State :=
  { s with currentGuess := word, guessNumber := s.guessNumber + 1 }

/-- Python `enter_result`: refine the working list with the current guess and
the result key, then rescore (the trailing `__score_words()` call of
`__refine_working_list`).  `none` models the Python call raising. -/
def enterResult (zipf : Word → ℚ) (s : State) (key : Word) : Option State :=
  (refineWorkingList s.currentGuess key s.workingList).map
    (fun l => scoreWords zipf { s with workingList := l })

/-- The `recommendation` property: `max(scored_words.items(), key=itemgetter(1))[0]`.
Python's `max` scans the items in insertion order and keeps the current
item unless a strictly greater value appears, so it returns the first
maximum; on an empty mapping it raises, modelled by `none`. -/
def recommendation (s : State) : Option Word :=
  match s.scoredWords with
  | [] => none
  | p :: rest => some ((rest.foldl (fun best q => if q.2 > best.2 then q else best) p).1)

/-- The states reachable from construction with vocabulary `vocab` by any
sequence of `enter_guess` and successful `enter_result` calls. -/
inductive Reachable (zipf : Word → ℚ) (vocab : List Word) : State → Prop
  | init : Reachable zipf vocab (mkSolver zipf vocab)
  | guess {s : State} (word : Word) :
      Reachable zipf vocab s → Reachable zipf vocab (enterGuess s word)
  | result {s s' : State} (key : Word) :
      Reachable zipf vocab s → enterResult zipf s key = some s' →
      Reachable zipf vocab s'

/-- The membership condition enforced by the pass that
`__refine_working_list` runs for position `index`: the predicate of the
filter chosen by the dispatch on `result_key[index]`. -/
def passCondition (guess key : Word) (index : Nat) (word : Word) : Bool :=
  match key[index]?, guess[index]? with
  | some k, some g =>
      if k = '-' then !(word.contains g)
      else if k = 'y' then !(word[index]? == some g) && word.contains g
      else word[index]? == some g
  | _, _ => true

/-- Modelled from the spec (apply feedback, §4.1): a word of the previous
Candidate Set survives iff for every position `i`,
if `feedbackKey[i] = ABSENT` (`'-'`) then `guess[i]` occurs nowhere in it;
if `feedbackKey[i] = PRESENT_WRONG_POSITION` (`'y'`) then it does not have
`guess[i]` at position `i` but does contain `guess[i]` somewhere;
if `feedbackKey[i] = CORRECT_POSITION` (`'g'`) then its character at
position `i` equals `guess[i]`. -/
def feedbackSpecCondition (guess key word : Word) : Bool :=
  (List.range 5).all fun i =>
    match key[i]?, guess[i]? with
    | some k, some g =>
        if k = '-' then !(word.contains g)
        else if k = 'y' then !(word[i]? == some g) && word.contains g
        else if k = 'g' then word[i]? == some g
        else true
    | _, _ => true

/-- A zipf-frequency oracle used for concrete instances: every word has
commonality 0. -/
def zipf0 : Word → ℚ := fun _ => 0

def apple : Word := ['a', 'p', 'p', 'l', 'e']

def angle : Word := ['a', 'n', 'g', 'l', 'e']

def table : Word := ['t', 'a', 'b', 'l', 'e']

/-- A small concrete vocabulary used for concrete instances. -/
def vocab0 : List Word := [apple, angle, table]

/-- A concrete feedback key used for concrete instances. -/
def keyC2 : Word := ['g', '-', 'y', '-', 'g']

/-- A too-short feedback key (length 2). -/
def keyShort : Word := ['-', '-']

/-- A too-long feedback key (length 6). -/
def keyLong : Word := ['-', '-', '-', '-', '-', '-']

/-- A concrete state after guessing `"table"` on the fresh solver. -/
def s0c : State := enterGuess (mkSolver zipf0 vocab0) table

/-- The concrete state `enter_result` produces from `s0c` and `keyC2`
(the key eliminates every candidate). -/
def s1c : State := scoreWords zipf0 { s0c with workingList := [] }

/-- The concrete state `enter_result` produces from `s1c` and `keyC2`. -/
def s2c : State := scoreWords zipf0 { s1c with workingList := [] }

lemma passCondition_def {guess key : Word} {index : Nat} {k g : Char}
    (hk : key[index]? = some k) (hg : guess[index]? = some g) :
    passCondition guess key index = fun word =>
      if k = '-' then !(word.contains g)
      else if k = 'y' then !(word[index]? == some g) && word.contains g
      else word[index]? == some g := by
  funext word
  simp only [passCondition, hk, hg]

lemma applyKeyChar_eq_filter {guess key : Word} {index : Nat} {k g : Char}
    (hk : key[index]? = some k) (hg : guess[index]? = some g) (l : List Word) :
    applyKeyChar guess key l index = some (l.filter (passCondition guess key index)) := by
  have hpc := passCondition_def hk hg
  by_cases h1 : k = '-'
  · simp [applyKeyChar, hk, hg, grayLetter, hpc, h1]
  · by_cases h2 : k = 'y'
    · simp [applyKeyChar, hk, hg, yellowLetter, hpc, h1, h2]
    · simp [applyKeyChar, hk, hg, greenLetter, hpc, h1, h2]

lemma all_congr_of_mem {α : Type} {l : List α} {f f' : α → Bool}
    (h : ∀ a ∈ l, f a = f' a) : l.all f = l.all f' := by
  induction l with
  | nil => rfl
  | cons a l ih =>
      simp only [List.all_cons]
      rw [h a (List.mem_cons_self a l), ih (fun b hb => h b (List.mem_cons_of_mem a hb))]

/-- The filtering loop over any list of positions whose key and guess
accesses are in range behaves as one filter by the conjunction of the
per-position conditions. -/
lemma foldlM_applyKeyChar_eq_filter {guess key : Word} (indices : List Nat) :
    ∀ l : List Word, (∀ i ∈ indices, (key[i]?).isSome ∧ (guess[i]?).isSome) →
      indices.foldlM (applyKeyChar guess key) l =
        some (l.filter (fun word => indices.all (fun i => passCondition guess key i word))) := by
  induction indices with
  | nil => intro l _; simp
  | cons i is ih =>
      intro l h
      obtain ⟨hk, hg⟩ := h i (List.mem_cons_self i is)
      obtain ⟨k, hk⟩ := Option.isSome_iff_exists.mp hk
      obtain ⟨g, hg⟩ := Option.isSome_iff_exists.mp hg
      rw [List.foldlM_cons, applyKeyChar_eq_filter hk hg]
      show is.foldlM (applyKeyChar guess key) _ = _
      rw [ih _ (fun j hj => h j (List.mem_cons_of_mem i hj)), List.filter_filter]
      congr 1
      apply List.filter_congr
      intro w _
      simp [List.all_cons, Bool.and_comm]

/-- The filtering loop of `__refine_working_list`, for a length-5 guess
and a length-5 key over the alphabet, is one filter by the spec's
per-position conditions. -/
lemma refine_eq_spec_filter (guess key : Word) (l : List Word)
    (hg : guess.length = 5) (hk : key.length = 5)
    (halpha : ∀ c ∈ key, c = '-' ∨ c = 'y' ∨ c = 'g') :
    refineWorkingList guess key l = some (l.filter (feedbackSpecCondition guess key)) := by
  have hsome : ∀ i ∈ List.range 5, (key[i]?).isSome ∧ (guess[i]?).isSome := by
    intro i hi
    rw [List.mem_range] at hi
    constructor
    · rw [List.getElem?_eq_getElem (by omega)]; simp
    · rw [List.getElem?_eq_getElem (by omega)]; simp
  rw [refineWorkingList, foldlM_applyKeyChar_eq_filter _ _ hsome]
  congr 1
  apply List.filter_congr
  intro w _
  apply all_congr_of_mem
  intro i hi
  rw [List.mem_range] at hi
  have hks : key[i]? = some key[i] := List.getElem?_eq_getElem (by omega)
  have hgs : guess[i]? = some guess[i] := List.getElem?_eq_getElem (by omega)
  have hmem : key[i] ∈ key := List.getElem_mem _
  rcases halpha _ hmem with h | h | h <;>
    simp only [passCondition, hks, hgs, h] <;> simp

/-- In every reachable state the letter table and the score table are the
ones recomputed by `__score_words` from the current working list, and the
vocabulary field is the one given at construction. -/
lemma reachable_invariant {zipf : Word → ℚ} {vocab : List Word} {s : State}
    (h : Reachable zipf vocab s) :
    s.validWords = vocab ∧
    s.letterCount = getLetterUsage s.workingList ∧
    s.scoredWords = s.workingList.map
      (fun word => (word, getWordScore (getLetterUsage s.workingList) zipf word)) := by
  induction h with
  | init => exact ⟨rfl, rfl, rfl⟩
  | guess word _ ih => exact ih
  | result key _ heq ih =>
      rw [enterResult, Option.map_eq_some'] at heq
      obtain ⟨l, -, rfl⟩ := heq
      exact ⟨ih.1, rfl, rfl⟩

/-- C2: in any solver state with a length-5 current guess, applying a
length-5 feedback key over `{'-', 'y', 'g'}` succeeds and produces the
Candidate Set consisting of exactly the words of the previous Candidate
Set that satisfy the spec's per-position conditions — a single filter,
independent of the order of the per-position passes. -/
theorem enterResult_workingList_eq_spec_filter (zipf : Word → ℚ) (s : State) (key : Word)
    (hg : s.currentGuess.length = 5) (hk : key.length = 5)
    (halpha : ∀ c ∈ key, c = '-' ∨ c = 'y' ∨ c = 'g') :
    (enterResult zipf s key).map State.workingList =
      some (s.workingList.filter (feedbackSpecCondition s.currentGuess key)) := by
  rw [enterResult, refine_eq_spec_filter _ _ _ hg hk halpha]
  rfl

/-- Witness for C2 at a concrete state, guess and key. -/
theorem enterResult_workingList_eq_spec_filter_witness :
    (enterGuess (mkSolver zipf0 vocab0) table).currentGuess.length = 5 ∧
    (enterResult zipf0 (enterGuess (mkSolver zipf0 vocab0) table) keyC2).map
        State.workingList =
      some ((enterGuess (mkSolver zipf0 vocab0) table).workingList.filter
        (feedbackSpecCondition (enterGuess (mkSolver zipf0 vocab0) table).currentGuess keyC2)) :=
  ⟨by decide,
    enterResult_workingList_eq_spec_filter zipf0 (enterGuess (mkSolver zipf0 vocab0) table)
      keyC2 (by decide) (by decide) (by decide)⟩

/-- C1 (amended): after every recomputation, the letter table maps each
letter to the total number of its occurrences over all words of the
current Candidate Set, counting a letter repeated inside one word once
per occurrence (not once per word). -/
theorem letterCount_eq_total_occurrences {zipf : Word → ℚ} {vocab : List Word} {s : State}
    (h : Reachable zipf vocab s) (c : Char) :
    s.letterCount c = (s.workingList.map (fun word => word.count c)).sum := by
  rw [(reachable_invariant h).2.1]
  exact List.count_flatten c s.workingList

/-- Witness for C1 (amended) at the initial state of a concrete solver. -/
theorem letterCount_eq_total_occurrences_witness :
    Reachable zipf0 vocab0 (mkSolver zipf0 vocab0) ∧
    (mkSolver zipf0 vocab0).letterCount 'l' =
      ((mkSolver zipf0 vocab0).workingList.map (fun word => word.count 'l')).sum :=
  ⟨Reachable.init, letterCount_eq_total_occurrences Reachable.init 'l'⟩

/-- Counterexample to C1 as stated: with the one-word vocabulary
`["apple"]`, the table maps `'p'` to `2`, but only `1` word of the
Candidate Set contains `'p'`. -/
theorem letterCount_per_word_counterexample :
    ¬ ((mkSolver zipf0 [apple]).letterCount 'p' =
        ((mkSolver zipf0 [apple]).workingList.filter
          (fun word => word.contains 'p')).length) := by
  decide

/-- The score computed by `__get_word_score` is the sum of the letter
counts over the set of distinct letters of the word plus twice the
zipf frequency. -/
lemma getWordScore_eq (lc : Char → Nat) (zipf : Word → ℚ) (word : Word) :
    getWordScore lc zipf word =
      (∑ c in word.toFinset, (lc c : ℚ)) + 2 * zipf word := by
  rw [getWordScore]
  have h : word.dedup.toFinset = word.toFinset :=
    List.toFinset_eq_iff_perm_dedup.mpr (by rw [List.dedup_idem])
  rw [← h, List.sum_toFinset _ word.nodup_dedup, mul_comm]

/-- C5: in every reachable state, the Score Table entry of a word equals
the sum of the Letter Frequency Table values over its unique letters
(duplicates contributing once) plus 2 times the Frequency Oracle's
commonality score of the word. -/
theorem scoredWords_entry_eq_unique_letter_sum {zipf : Word → ℚ} {vocab : List Word}
    {s : State} (h : Reachable zipf vocab s) {word : Word} {q : ℚ}
    (hmem : (word, q) ∈ s.scoredWords) :
    q = (∑ c in word.toFinset, (s.letterCount c : ℚ)) + 2 * zipf word := by
  obtain ⟨-, hlc, hsw⟩ := reachable_invariant h
  rw [hsw, List.mem_map] at hmem
  obtain ⟨w, hw, heq⟩ := hmem
  have h1 : w = word := congrArg Prod.fst heq
  have h2 : getWordScore (getLetterUsage s.workingList) zipf w = q := congrArg Prod.snd heq
  subst h1
  rw [← h2, hlc, getWordScore_eq]

/-- Witness for C5: the score-table entry of `"apple"` in the initial
solver over `vocab0`. -/
theorem scoredWords_entry_eq_unique_letter_sum_witness :
    Reachable zipf0 vocab0 (mkSolver zipf0 vocab0) ∧
    (apple, getWordScore (getLetterUsage vocab0) zipf0 apple) ∈
      (mkSolver zipf0 vocab0).scoredWords ∧
    getWordScore (getLetterUsage vocab0) zipf0 apple =
      (∑ c in apple.toFinset, ((mkSolver zipf0 vocab0).letterCount c : ℚ)) +
        2 * zipf0 apple :=
  have hmem : (apple, getWordScore (getLetterUsage vocab0) zipf0 apple) ∈
      (mkSolver zipf0 vocab0).scoredWords :=
    List.mem_map_of_mem _ (List.mem_cons_self _ _)
  ⟨Reachable.init, hmem,
    scoredWords_entry_eq_unique_letter_sum Reachable.init hmem⟩

/-- C8: in every reachable state the domain of the Score Table is
exactly the current Candidate Set: the keys, in order, are the working
list, so a word has a score entry iff it is a candidate. -/
theorem scoredWords_domain_eq_workingList {zipf : Word → ℚ} {vocab : List Word} {s : State}
    (h : Reachable zipf vocab s) :
    s.scoredWords.map Prod.fst = s.workingList ∧
    ∀ word : Word, (∃ q, (word, q) ∈ s.scoredWords) ↔ word ∈ s.workingList := by
  obtain ⟨-, -, hsw⟩ := reachable_invariant h
  constructor
  · rw [hsw, List.map_map]
    exact List.map_id _
  · intro word
    rw [hsw]
    constructor
    · rintro ⟨q, hq⟩
      rw [List.mem_map] at hq
      obtain ⟨w, hw, heq⟩ := hq
      have h1 : w = word := congrArg Prod.fst heq
      rwa [h1] at hw
    · intro hw
      exact ⟨_, List.mem_map_of_mem _ hw⟩

/-- Witness for C8 at the initial state of a concrete solver. -/
theorem scoredWords_domain_eq_workingList_witness :
    (mkSolver zipf0 vocab0).scoredWords.map Prod.fst = (mkSolver zipf0 vocab0).workingList ∧
    ∀ word : Word,
      (∃ q, (word, q) ∈ (mkSolver zipf0 vocab0).scoredWords) ↔
        word ∈ (mkSolver zipf0 vocab0).workingList :=
  scoredWords_domain_eq_workingList Reachable.init

lemma access_isSome {w : Word} {i : Nat} (h : i < w.length) : (w[i]?).isSome = true := by
  rw [List.getElem?_eq_getElem h]
  rfl

/-- For a length-5 guess and a length-5 key, every position of the loop
accesses both strings in range. -/
lemma range5_accesses {guess key : Word} (hg : guess.length = 5) (hk : key.length = 5) :
    ∀ i ∈ List.range 5, ((key[i]?).isSome = true) ∧ ((guess[i]?).isSome = true) := by
  intro i hi
  rw [List.mem_range] at hi
  exact ⟨access_isSome (by omega), access_isSome (by omega)⟩

/-- Every pass of the loop, when it completes, only removes words. -/
lemma applyKeyChar_sublist {guess key : Word} {index : Nat} {l l' : List Word}
    (h : applyKeyChar guess key l index = some l') : l'.Sublist l := by
  cases hks : key[index]? with
  | none => simp [applyKeyChar, hks] at h
  | some k =>
      cases hgs : guess[index]? with
      | none => simp [applyKeyChar, hks, hgs] at h
      | some g =>
          simp only [applyKeyChar, hks, hgs] at h
          split_ifs at h <;> (injection h with h; rw [← h]; exact List.filter_sublist l)

/-- The whole loop, when it completes, only removes words. -/
lemma foldlM_applyKeyChar_sublist {guess key : Word} (indices : List Nat) :
    ∀ {l l' : List Word}, indices.foldlM (applyKeyChar guess key) l = some l' →
      l'.Sublist l := by
  induction indices with
  | nil =>
      intro l l' h
      rw [List.foldlM_nil] at h
      injection h with h
      rw [← h]
  | cons i is ih =>
      intro l l' h
      rw [List.foldlM_cons] at h
      cases happly : applyKeyChar guess key l i with
      | none => rw [happly] at h; simp at h
      | some l₁ =>
          rw [happly] at h
          exact (ih h).trans (applyKeyChar_sublist happly)

/-- If an in-range prefix of positions is followed by a position where
the key access is out of range, the loop fails (the Python `IndexError`). -/
lemma foldlM_applyKeyChar_none {guess key : Word} (is₁ is₂ : List Nat) (j : Nat)
    (l : List Word)
    (h₁ : ∀ i ∈ is₁, ((key[i]?).isSome = true) ∧ ((guess[i]?).isSome = true))
    (hj : key[j]? = none) :
    (is₁ ++ j :: is₂).foldlM (applyKeyChar guess key) l = none := by
  rw [List.foldlM_append, foldlM_applyKeyChar_eq_filter _ _ h₁]
  have hbind : ∀ (x : List Word) (g : List Word → Option (List Word)),
      some x >>= g = g x := fun _ _ => rfl
  rw [hbind, List.foldlM_cons]
  have ha : ∀ l' : List Word, applyKeyChar guess key l' j = none := by
    intro l'
    simp [applyKeyChar, hj]
  rw [ha]
  rfl

/-- The loop only reads the key at the positions it visits. -/
lemma foldlM_applyKeyChar_congr {guess key key' : Word} (indices : List Nat)
    (h : ∀ i ∈ indices, key[i]? = key'[i]?) :
    ∀ l : List Word, indices.foldlM (applyKeyChar guess key) l =
      indices.foldlM (applyKeyChar guess key') l := by
  induction indices with
  | nil => intro l; rfl
  | cons i is ih =>
      intro l
      rw [List.foldlM_cons, List.foldlM_cons]
      have hstep : applyKeyChar guess key l i = applyKeyChar guess key' l i := by
        simp only [applyKeyChar, h i (List.mem_cons_self i is)]
      rw [hstep]
      cases applyKeyChar guess key' l i with
      | none => rfl
      | some x => exact ih (fun j hj => h j (List.mem_cons_of_mem i hj)) x

/-- C3 (amended): when refinement eliminates every candidate,
`enter_result` completes normally — no error is raised — leaving an
empty Candidate Set, and the recommendation is then undefined
(Python's `max` over the empty score mapping raises, modelled `none`). -/
theorem enterResult_empty_completes_silently (zipf : Word → ℚ) (s : State) (key : Word)
    (h : refineWorkingList s.currentGuess key s.workingList = some []) :
    (enterResult zipf s key).map State.workingList = some [] ∧
    (enterResult zipf s key).map recommendation = some none := by
  rw [enterResult, h]
  exact ⟨rfl, rfl⟩

/-- Witness for C3 (amended): guessing `"table"` on `vocab0` and keying
`"g-y-g"` eliminates all three words; `enter_result` still completes. -/
theorem enterResult_empty_completes_silently_witness :
    refineWorkingList s0c.currentGuess keyC2 s0c.workingList = some [] ∧
    (enterResult zipf0 s0c keyC2).map State.workingList = some [] ∧
    (enterResult zipf0 s0c keyC2).map recommendation = some none :=
  ⟨rfl, enterResult_empty_completes_silently zipf0 s0c keyC2 rfl⟩

/-- Counterexample to C3 as stated: applying feedback that eliminates
every candidate does NOT surface an error — the call returns the state
`s1c` with an empty working list instead of failing. -/
theorem enterResult_empty_no_error_counterexample :
    s1c.workingList = [] ∧ enterResult zipf0 s0c keyC2 = some s1c ∧
    enterResult zipf0 s0c keyC2 ≠ none := by
  have hsome : enterResult zipf0 s0c keyC2 = some s1c := rfl
  refine ⟨rfl, hsome, ?_⟩
  rw [hsome]
  exact Option.some_ne_none _

/-- C4 (amended): a feedback key shorter than 5 makes
`__refine_working_list` fail with an index error (not a dedicated
`InvalidFeedbackLength` error), while a key of length 5 or more is
accepted silently: the symbols beyond position 4 are ignored. -/
theorem refine_wrong_key_length :
    (∀ (guess key : Word) (l : List Word), guess.length = 5 → key.length < 5 →
        refineWorkingList guess key l = none) ∧
    (∀ (guess key : Word) (l : List Word), 5 ≤ key.length →
        refineWorkingList guess key l = refineWorkingList guess (key.take 5) l) := by
  constructor
  · intro guess key l hg hk
    have hone : ∀ i, i < key.length →
        ((key[i]?).isSome = true) ∧ ((guess[i]?).isSome = true) :=
      fun i hi => ⟨access_isSome (by omega), access_isSome (by omega)⟩
    have h5 : key.length = 0 ∨ key.length = 1 ∨ key.length = 2 ∨ key.length = 3 ∨
        key.length = 4 := by omega
    have hj : key[key.length]? = none := List.getElem?_eq_none (le_refl _)
    rcases h5 with hc | hc | hc | hc | hc <;> rw [hc] at hj
    · rw [refineWorkingList, (by decide : List.range 5 = List.range 0 ++ 0 :: [1, 2, 3, 4])]
      refine foldlM_applyKeyChar_none _ _ _ _ ?_ hj
      intro i hi
      rw [List.mem_range] at hi
      exact hone i (by omega)
    · rw [refineWorkingList, (by decide : List.range 5 = List.range 1 ++ 1 :: [2, 3, 4])]
      refine foldlM_applyKeyChar_none _ _ _ _ ?_ hj
      intro i hi
      rw [List.mem_range] at hi
      exact hone i (by omega)
    · rw [refineWorkingList, (by decide : List.range 5 = List.range 2 ++ 2 :: [3, 4])]
      refine foldlM_applyKeyChar_none _ _ _ _ ?_ hj
      intro i hi
      rw [List.mem_range] at hi
      exact hone i (by omega)
    · rw [refineWorkingList, (by decide : List.range 5 = List.range 3 ++ 3 :: [4])]
      refine foldlM_applyKeyChar_none _ _ _ _ ?_ hj
      intro i hi
      rw [List.mem_range] at hi
      exact hone i (by omega)
    · rw [refineWorkingList, (by decide : List.range 5 = List.range 4 ++ 4 :: [])]
      refine foldlM_applyKeyChar_none _ _ _ _ ?_ hj
      intro i hi
      rw [List.mem_range] at hi
      exact hone i (by omega)
  · intro guess key l hk
    rw [refineWorkingList, refineWorkingList]
    apply foldlM_applyKeyChar_congr
    intro i hi
    rw [List.mem_range] at hi
    exact (List.getElem?_take_of_lt (by omega)).symm

/-- Witness for C4 (amended) at a concrete short key and long key. -/
theorem refine_wrong_key_length_witness :
    (table.length = 5 ∧ keyShort.length < 5 ∧
      refineWorkingList table keyShort vocab0 = none) ∧
    (5 ≤ keyLong.length ∧
      refineWorkingList table keyLong vocab0 =
        refineWorkingList table (keyLong.take 5) vocab0) :=
  ⟨⟨by decide, by decide, refine_wrong_key_length.1 table keyShort vocab0 rfl (by decide)⟩,
    ⟨by decide, refine_wrong_key_length.2 table keyLong vocab0 (by decide)⟩⟩

/-- Counterexample to C4 as stated: the length-6 key `"------"` does not
have length 5, yet `__refine_working_list` completes without any error
(`isSome`), ignoring the sixth symbol. -/
theorem refine_long_key_no_error_counterexample :
    keyLong.length = 6 ∧ (refineWorkingList table keyLong vocab0).isSome = true := by
  decide

/-- C6: every successful `enter_result` shrinks the Candidate Set — the
new working list is a sublist of the old one (hence not longer) — and in
every reachable state the Candidate Set is contained in the vocabulary
given at construction. -/
theorem enterResult_monotone_and_subset_vocab :
    (∀ (zipf : Word → ℚ) (s s' : State) (key : Word),
        enterResult zipf s key = some s' →
        s'.workingList.Sublist s.workingList ∧
        s'.workingList.length ≤ s.workingList.length) ∧
    (∀ (zipf : Word → ℚ) (vocab : List Word) (s : State),
        Reachable zipf vocab s → s.workingList ⊆ vocab) := by
  have hrefine : ∀ (zipf : Word → ℚ) (s s' : State) (key : Word),
      enterResult zipf s key = some s' → s'.workingList.Sublist s.workingList := by
    intro zipf s s' key h
    rw [enterResult, Option.map_eq_some'] at h
    obtain ⟨l, hl, rfl⟩ := h
    exact foldlM_applyKeyChar_sublist _ hl
  constructor
  · intro zipf s s' key h
    exact ⟨hrefine _ _ _ _ h, (hrefine _ _ _ _ h).length_le⟩
  · intro zipf vocab s h
    induction h with
    | init => exact fun a ha => ha
    | guess word _ ih => exact ih
    | result key _ heq ih => exact fun a ha => ih ((hrefine _ _ _ _ heq).subset ha)

/-- Witness for C6 at a concrete feedback application and the initial state. -/
theorem enterResult_monotone_and_subset_vocab_witness :
    (enterResult zipf0 s0c keyC2 = some s1c ∧
      s1c.workingList.Sublist s0c.workingList ∧
      s1c.workingList.length ≤ s0c.workingList.length) ∧
    (mkSolver zipf0 vocab0).workingList ⊆ vocab0 :=
  have h : enterResult zipf0 s0c keyC2 = some s1c := rfl
  ⟨⟨h, (enterResult_monotone_and_subset_vocab.1 zipf0 s0c s1c keyC2 h).1,
      (enterResult_monotone_and_subset_vocab.1 zipf0 s0c s1c keyC2 h).2⟩,
    enterResult_monotone_and_subset_vocab.2 zipf0 vocab0 _ Reachable.init⟩

/-- C7: applying the same (guess, feedback) pair twice in succession is
idempotent on the Candidate Set — the second successful application
leaves the working list unchanged — for every guess of length 5 and
every feedback key of length 5. -/
theorem enterResult_idempotent (zipf : Word → ℚ) (s s' s'' : State) (key : Word)
    (hg : s.currentGuess.length = 5) (hk : key.length = 5)
    (h1 : enterResult zipf s key = some s')
    (h2 : enterResult zipf s' key = some s'') :
    s''.workingList = s'.workingList := by
  rw [enterResult, Option.map_eq_some'] at h1 h2
  obtain ⟨l₁, hl₁, rfl⟩ := h1
  obtain ⟨l₂, hl₂, rfl⟩ := h2
  have hl₂' : refineWorkingList s.currentGuess key l₁ = some l₂ := hl₂
  have hsome := range5_accesses hg hk
  rw [refineWorkingList, foldlM_applyKeyChar_eq_filter _ _ hsome] at hl₁ hl₂'
  injection hl₁ with hl₁
  injection hl₂' with hl₂'
  show l₂ = l₁
  rw [← hl₂', ← hl₁, List.filter_filter]
  apply List.filter_congr
  intro a _
  exact Bool.and_self _

/-- Witness for C7 at a concrete state and key (the second application
of `keyC2` after `s1c` leaves the empty working list unchanged). -/
theorem enterResult_idempotent_witness :
    s0c.currentGuess.length = 5 ∧ keyC2.length = 5 ∧
    enterResult zipf0 s0c keyC2 = some s1c ∧
    enterResult zipf0 s1c keyC2 = some s2c ∧
    s2c.workingList = s1c.workingList :=
  ⟨by decide, by decide, rfl, rfl,
    enterResult_idempotent zipf0 s0c s1c s2c keyC2 (by decide) (by decide) rfl rfl⟩

/-- The scan of Python's `max(..., key=itemgetter(1))` over the scored
pairs keeps the current best unless a strictly greater score appears, so
it either returns the initial pair with everything below its score, or
the first pair of a strictly increased maximal score: everything before
it scores strictly less, everything after at most as much. -/
lemma foldl_max_decomp (score : Word → ℚ) :
    ∀ (xs : List Word) (b : Word × ℚ), b.2 = score b.1 →
      ((xs.map (fun u => (u, score u))).foldl
          (fun best q => if q.2 > best.2 then q else best) b = b ∧
        ∀ u ∈ xs, score u ≤ b.2) ∨
      (∃ xs₁ w xs₂, xs = xs₁ ++ w :: xs₂ ∧
        (xs.map (fun u => (u, score u))).foldl
          (fun best q => if q.2 > best.2 then q else best) b = (w, score w) ∧
        b.2 < score w ∧ (∀ u ∈ xs₁, score u < score w) ∧
        (∀ u ∈ xs₂, score u ≤ score w)) := by
  intro xs
  induction xs with
  | nil => intro b _; left; exact ⟨rfl, by simp⟩
  | cons y ys ih =>
      intro b hb
      rw [List.map_cons, List.foldl_cons]
      by_cases hy : score y > b.2
      · rw [if_pos (show (y, score y).2 > b.2 from hy)]
        rcases ih (y, score y) rfl with ⟨heq, hall⟩ | ⟨xs₁, w, xs₂, hsplit, heq, hlt, h₁, h₂⟩
        · right
          exact ⟨[], y, ys, rfl, heq, hy, by simp, hall⟩
        · right
          refine ⟨y :: xs₁, w, xs₂, by rw [hsplit, List.cons_append], heq,
            lt_trans hy hlt, ?_, h₂⟩
          intro u hu
          rcases List.mem_cons.mp hu with rfl | hu
          · exact hlt
          · exact h₁ u hu
      · rw [if_neg (show ¬(y, score y).2 > b.2 from hy)]
        rcases ih b hb with ⟨heq, hall⟩ | ⟨xs₁, w, xs₂, hsplit, heq, hlt, h₁, h₂⟩
        · left
          refine ⟨heq, ?_⟩
          intro u hu
          rcases List.mem_cons.mp hu with rfl | hu
          · exact not_lt.mp hy
          · exact hall u hu
        · right
          refine ⟨y :: xs₁, w, xs₂, by rw [hsplit, List.cons_append], heq, hlt, ?_, h₂⟩
          intro u hu
          rcases List.mem_cons.mp hu with rfl | hu
          · exact lt_of_le_of_lt (not_lt.mp hy) hlt
          · exact h₁ u hu

/-- The scan of Python's `max` over a non-empty candidate list returns
the first word of maximal score: the list splits around the returned
word, with strictly smaller scores before it and no larger score after. -/
lemma foldl_max_first (score : Word → ℚ) (x : Word) (xs : List Word) :
    ∃ m₁ w m₂, x :: xs = m₁ ++ w :: m₂ ∧
      (xs.map (fun u => (u, score u))).foldl
        (fun best q => if q.2 > best.2 then q else best) (x, score x) = (w, score w) ∧
      (∀ u ∈ m₁, score u < score w) ∧ (∀ u ∈ m₂, score u ≤ score w) := by
  rcases foldl_max_decomp score xs (x, score x) rfl with
    ⟨heq, hall⟩ | ⟨xs₁, w, xs₂, hsplit, heq, hlt, h₁, h₂⟩
  · exact ⟨[], x, xs, rfl, heq, by simp, hall⟩
  · refine ⟨x :: xs₁, w, xs₂, by rw [hsplit, List.cons_append], heq, ?_, h₂⟩
    intro u hu
    rcases List.mem_cons.mp hu with rfl | hu
    · exact hlt
    · exact h₁ u hu

/-- In every reachable state the working list is an order-preserving
sublist of the vocabulary. -/
lemma reachable_workingList_sublist {zipf : Word → ℚ} {vocab : List Word} {s : State}
    (h : Reachable zipf vocab s) : s.workingList.Sublist vocab := by
  induction h with
  | init => exact List.Sublist.refl vocab
  | guess word _ ih => exact ih
  | result key _ heq ih =>
      rw [enterResult, Option.map_eq_some'] at heq
      obtain ⟨l, hl, rfl⟩ := heq
      exact (foldlM_applyKeyChar_sublist _ hl).trans ih

lemma word_indexOf_cons_self (a : Word) (l : List Word) : (a :: l).indexOf a = 0 := by
  simp [List.indexOf_cons]

lemma word_indexOf_cons_ne {a b : Word} (l : List Word) (h : b ≠ a) :
    (b :: l).indexOf a = l.indexOf a + 1 := by
  rw [List.indexOf_cons, beq_false_of_ne h]
  rfl

/-- In a duplicate-free list, earlier elements have smaller indexOf. -/
lemma nodup_pairwise_indexOf {v : List Word} (hnd : v.Nodup) :
    v.Pairwise (fun a b => v.indexOf a < v.indexOf b) := by
  induction v with
  | nil => exact List.Pairwise.nil
  | cons a v ih =>
      rw [List.nodup_cons] at hnd
      obtain ⟨ha, hv⟩ := hnd
      rw [List.pairwise_cons]
      constructor
      · intro b hb
        rw [word_indexOf_cons_self, word_indexOf_cons_ne _ (fun hab => ha (by rw [hab]; exact hb))]
        exact Nat.succ_pos _
      · apply List.Pairwise.imp_of_mem ?_ (ih hv)
        intro b c hb hc hbc
        rw [word_indexOf_cons_ne _ (fun hab => ha (by rw [hab]; exact hb)),
          word_indexOf_cons_ne _ (fun hac => ha (by rw [hac]; exact hc))]
        exact Nat.succ_lt_succ hbc

/-- C9: in every reachable state with a non-empty Candidate Set, the
`recommendation` property returns a word of the Candidate Set whose
score is maximal among all candidates. -/
theorem recommendation_member_maximal {zipf : Word → ℚ} {vocab : List Word} {s : State}
    (h : Reachable zipf vocab s) (hne : s.workingList ≠ []) :
    ∃ w, recommendation s = some w ∧ w ∈ s.workingList ∧
      ∀ u ∈ s.workingList,
        getWordScore s.letterCount zipf u ≤ getWordScore s.letterCount zipf w := by
  obtain ⟨-, hlc, hsw⟩ := reachable_invariant h
  cases hl : s.workingList with
  | nil => exact absurd hl hne
  | cons x xs =>
      rw [hl] at hsw
      obtain ⟨m₁, w, m₂, hsplit, hfold, h₁, h₂⟩ :=
        foldl_max_first (getWordScore (getLetterUsage (x :: xs)) zipf) x xs
      refine ⟨w, ?_, ?_, ?_⟩
      · simp only [recommendation, hsw, List.map_cons]
        rw [hfold]
      · rw [hsplit]
        exact List.mem_append_right m₁ (List.mem_cons_self w m₂)
      · intro u hu
        rw [hlc, hl]
        rw [hsplit] at hu
        rcases List.mem_append.mp hu with hu | hu
        · exact le_of_lt (h₁ u hu)
        · rcases List.mem_cons.mp hu with rfl | hu
          · exact le_refl _
          · exact h₂ u hu

/-- Witness for C9 at the initial state of a concrete solver. -/
theorem recommendation_member_maximal_witness :
    Reachable zipf0 vocab0 (mkSolver zipf0 vocab0) ∧
    (mkSolver zipf0 vocab0).workingList ≠ [] ∧
    (∃ w, recommendation (mkSolver zipf0 vocab0) = some w ∧
      w ∈ (mkSolver zipf0 vocab0).workingList ∧
      ∀ u ∈ (mkSolver zipf0 vocab0).workingList,
        getWordScore (mkSolver zipf0 vocab0).letterCount zipf0 u ≤
          getWordScore (mkSolver zipf0 vocab0).letterCount zipf0 w) :=
  ⟨Reachable.init, by decide,
    recommendation_member_maximal Reachable.init (by decide)⟩

/-- C10: when the vocabulary is duplicate-free, the Candidate Set of
every reachable state is a duplicate-free sublist of the vocabulary in
the vocabulary's original order, and on a non-empty Candidate Set the
`recommendation` property deterministically returns the earliest word in
vocabulary order among the candidates of maximal score. -/
theorem workingList_ordered_recommendation_first {zipf : Word → ℚ} {vocab : List Word}
    {s : State} (h : Reachable zipf vocab s) (hnd : vocab.Nodup) :
    s.workingList.Sublist vocab ∧ s.workingList.Nodup ∧
    (s.workingList ≠ [] → ∃ w, recommendation s = some w ∧ w ∈ s.workingList ∧
      (∀ u ∈ s.workingList,
        getWordScore s.letterCount zipf u ≤ getWordScore s.letterCount zipf w) ∧
      ∀ u ∈ s.workingList, getWordScore s.letterCount zipf u =
        getWordScore s.letterCount zipf w → vocab.indexOf w ≤ vocab.indexOf u) := by
  obtain ⟨-, hlc, hsw⟩ := reachable_invariant h
  have hsub : s.workingList.Sublist vocab := reachable_workingList_sublist h
  refine ⟨hsub, hsub.nodup hnd, ?_⟩
  intro hne
  have hpw : s.workingList.Pairwise (fun a b => vocab.indexOf a < vocab.indexOf b) :=
    (nodup_pairwise_indexOf hnd).sublist hsub
  cases hl : s.workingList with
  | nil => exact absurd hl hne
  | cons x xs =>
      rw [hl] at hsw hpw
      obtain ⟨m₁, w, m₂, hsplit, hfold, h₁, h₂⟩ :=
        foldl_max_first (getWordScore (getLetterUsage (x :: xs)) zipf) x xs
      have hwmem : w ∈ x :: xs := by
        rw [hsplit]
        exact List.mem_append_right m₁ (List.mem_cons_self w m₂)
      have hpw₂ : ∀ u ∈ m₂, vocab.indexOf w < vocab.indexOf u := by
        have : (w :: m₂).Pairwise (fun a b => vocab.indexOf a < vocab.indexOf b) := by
          refine List.Pairwise.sublist ?_ hpw
          rw [hsplit]
          exact List.sublist_append_right m₁ (w :: m₂)
        exact (List.pairwise_cons.mp this).1
      refine ⟨w, ?_, ?_, ?_, ?_⟩
      · simp only [recommendation, hsw, List.map_cons]
        rw [hfold]
      · exact hwmem
      · intro u hu
        rw [hlc, hl]
        rw [hsplit] at hu
        rcases List.mem_append.mp hu with hu | hu
        · exact le_of_lt (h₁ u hu)
        · rcases List.mem_cons.mp hu with rfl | hu
          · exact le_refl _
          · exact h₂ u hu
      · intro u hu hscore
        rw [hlc, hl] at hscore
        rw [hsplit] at hu
        rcases List.mem_append.mp hu with hu | hu
        · exact absurd hscore (ne_of_lt (h₁ u hu))
        · rcases List.mem_cons.mp hu with rfl | hu
          · exact le_refl _
          · exact le_of_lt (hpw₂ u hu)

/-- Witness for C10 at the initial state of a concrete solver. -/
theorem workingList_ordered_recommendation_first_witness :
    Reachable zipf0 vocab0 (mkSolver zipf0 vocab0) ∧ vocab0.Nodup ∧
    ((mkSolver zipf0 vocab0).workingList.Sublist vocab0 ∧
      (mkSolver zipf0 vocab0).workingList.Nodup ∧
      ((mkSolver zipf0 vocab0).workingList ≠ [] →
        ∃ w, recommendation (mkSolver zipf0 vocab0) = some w ∧
          w ∈ (mkSolver zipf0 vocab0).workingList ∧
          (∀ u ∈ (mkSolver zipf0 vocab0).workingList,
            getWordScore (mkSolver zipf0 vocab0).letterCount zipf0 u ≤
              getWordScore (mkSolver zipf0 vocab0).letterCount zipf0 w) ∧
          ∀ u ∈ (mkSolver zipf0 vocab0).workingList,
            getWordScore (mkSolver zipf0 vocab0).letterCount zipf0 u =
              getWordScore (mkSolver zipf0 vocab0).letterCount zipf0 w →
            vocab0.indexOf w ≤ vocab0.indexOf u)) :=
  ⟨Reachable.init, by decide,
    workingList_ordered_recommendation_first Reachable.init (by decide)⟩

end WordleSolver
